import Mathlib

/-!
Shallow embedding of the core of the gvsu-cis350-sporks scheduling server
(time and rule calculus, preference algebra, dependency engine, scheduling
engine, and the integration layer), together with theorems settling the
frozen claims about its specification.

Conventions of the embedding:
- a chrono DateTime<Utc> is modelled as an Int of seconds since the Unix
  epoch; the chrono validity range is modelled by the constants dtMin and
  dtMax below;
- f32 Preference and Proficiency values are modelled as rationals plus the
  two infinities where the source admits them (NaN is excluded by the stated
  data invariant, and the source code never performs arithmetic on these
  values, only comparisons, which agree with rational comparisons);
- hash maps are modelled as association lists in iteration order, and hash
  sets as lists of members;
- a Rust panic is modelled as the none case of an Option result.
-/

namespace Sporks

/-- Lower bound of the chrono NaiveDateTime range, in seconds since the epoch
(the exact value is irrelevant to every claim; it only has to exist). -/
def dtMin : Int := -8334601228800

/-- Upper bound of the chrono NaiveDateTime range, in seconds since the epoch. -/
def dtMax : Int := 8210266876799

/-- Whether a timestamp is inside the representable chrono range. -/
def dtOk (t : Int) : Bool := dtMin ≤ t && t ≤ dtMax

/-- Model of chrono checked_add_signed on DateTime<Utc>: exact seconds,
failing outside the representable range. -/
def checkedAddSigned (t s : Int) : Option Int :=
  let r := t + s
  if dtOk r then some r else none

/-- Model of chrono checked_add_days: in UTC a calendar day is exactly
86400 seconds. -/
def checkedAddDays (t : Int) (d : Nat) : Option Int :=
  let r := t + 86400 * (d : Int)
  if dtOk r then some r else none

/-- Gregorian leap year test. -/
def isLeap (y : Int) : Bool :=
  (y % 4 == 0 && y % 100 != 0) || (y % 400 == 0)

/-- Number of days in a month of a given year. -/
def lastDayOfMonth (y m : Int) : Int :=
  if m = 2 then (if isLeap y then 29 else 28)
  else if m = 4 ∨ m = 6 ∨ m = 9 ∨ m = 11 then 30
  else 31

/-- Civil date from days since the epoch (Gregorian calendar, floor-division
form of the standard algorithm). Returns (year, month, day). -/
def civilFromDays (z : Int) : Int × Int × Int :=
  let z := z + 719468
  let era := Int.fdiv z 146097
  let doe := z - era * 146097
  let yoe := Int.fdiv (doe - Int.fdiv doe 1460 + Int.fdiv doe 36524 - Int.fdiv doe 146096) 365
  let y := yoe + era * 400
  let doy := doe - (365 * yoe + Int.fdiv yoe 4 - Int.fdiv yoe 100)
  let mp := Int.fdiv (5 * doy + 2) 153
  let d := doy - Int.fdiv (153 * mp + 2) 5 + 1
  let m := mp + (if mp < 10 then 3 else -9)
  (y + (if m ≤ 2 then 1 else 0), m, d)

/-- Days since the epoch from a civil date (inverse of civilFromDays). -/
def daysFromCivil (y m d : Int) : Int :=
  let y := y - (if m ≤ 2 then 1 else 0)
  let era := Int.fdiv y 400
  let yoe := y - era * 400
  let doy := Int.fdiv (153 * (m + (if m > 2 then -3 else 9)) + 2) 5 + d - 1
  let doe := yoe * 365 + Int.fdiv yoe 4 - Int.fdiv yoe 100 + doy
  era * 146097 + doe - 719468

/-- Model of chrono checked_add_months: calendar months with day-of-month
clamping to the last valid day, keeping the time of day. Adding zero months
is an identity, as in chrono. -/
def checkedAddMonths (t : Int) (n : Nat) : Option Int :=
  if n = 0 then some t
  else
    let z := Int.fdiv t 86400
    let sod := Int.fmod t 86400
    let c := civilFromDays z
    let mo := c.1 * 12 + (c.2.1 - 1) + (n : Int)
    let y2 := Int.fdiv mo 12
    let m2 := Int.fmod mo 12 + 1
    let d2 := min c.2.2 (lastDayOfMonth y2 m2)
    let r := daysFromCivil y2 m2 d2 * 86400 + sod
    if dtOk r then some r else none

/-- Frequency from data/rule.rs: a bag of additive repetition components.
The source fields are u8 (u16 for years); the arithmetic in the source only
ever widens them, so Nat is a faithful carrier. -/
structure Frequency where
  seconds : Nat
  minutes : Nat
  hours : Nat
  days : Nat
  weeks : Nat
  months : Nat
  years : Nat
deriving DecidableEq

/-- Frequency::checked_add_date from data/rule.rs. Note: the source computes
the exact-duration part as seconds + 60 * minutes and never reads the hours
field; then it adds days + 7 * weeks calendar days and months + 12 * years
calendar months. -/
def Frequency.checked_add_date (f : Frequency) (date : Int) : Option Int := do
  let seconds : Int := (f.seconds : Int) + 60 * (f.minutes : Int)
  let days : Nat := f.days + 7 * f.weeks
  let months : Nat := f.months + 12 * f.years
  let d1 ← checkedAddSigned date seconds
  let d2 ← checkedAddDays d1 days
  checkedAddMonths d2 months

/-- Specification-side advance of a datetime by a Frequency, written from the
words of the spec (section 4.1): add seconds, minutes and hours as an exact
duration, then the calendar days, then the calendar months. It differs from
the source only in including the hours component. -/
def Frequency.specAdvance (f : Frequency) (date : Int) : Option Int := do
  let seconds : Int := (f.seconds : Int) + 60 * (f.minutes : Int) + 3600 * (f.hours : Int)
  let days : Nat := f.days + 7 * f.weeks
  let months : Nat := f.months + 12 * f.years
  let d1 ← checkedAddSigned date seconds
  let d2 ← checkedAddDays d1 days
  checkedAddMonths d2 months

/-- Preference from data/user.rs: an f32 in the set { -inf } union [-1, 1]
union { +inf }; finite values are modelled as rationals. NaN is excluded by
the stated invariant and the total order below is the f32 partial_cmp order
restricted to non-NaN values. -/
inductive Preference
  | negInf
  | fin (q : ℚ)
  | posInf
deriving DecidableEq

/-- Total order on preferences (f32 comparison on non-NaN values). -/
def Preference.ble : Preference → Preference → Bool
  | .negInf, _ => true
  | .fin _, .negInf => false
  | .fin a, .fin b => a ≤ b
  | .fin _, .posInf => true
  | .posInf, .posInf => true
  | .posInf, _ => false

/-- Strict order on preferences. -/
def Preference.blt (a b : Preference) : Bool := !(b.ble a)

/-- Minimum of two preferences. -/
def Preference.bmin (a b : Preference) : Preference := if a.ble b then a else b

/-- TimeInterval from data/slot.rs. The source field named end is called stop
here because end is a Lean keyword. -/
structure TimeInterval where
  start : Int
  stop : Int
deriving DecidableEq

/-- TimeInterval::contains: self.start <= other.start and other.end <= self.end. -/
def TimeInterval.contains (a b : TimeInterval) : Bool :=
  a.start ≤ b.start && b.stop ≤ a.stop

/-- Repetition from data/rule.rs. -/
structure Repetition where
  every : Frequency
  start : Int
  untl : Option Int
deriving DecidableEq

/-- The sequence of datetimes traversed by RepetitionIter: the start, then
repeated application of checked_add_date. -/
def Repetition.dseq (rep : Repetition) : Nat → Option Int
  | 0 => some rep.start
  | n + 1 => (rep.dseq n).bind rep.every.checked_add_date

/-- The emission filter of RepetitionIter: a date is yielded while
date <= until (always yielded when until is None). -/
def Repetition.untilOk (rep : Repetition) (d : Int) : Bool :=
  match rep.untl with
  | none => true
  | some u => d ≤ u

/-- Rule from data/rule.rs. -/
structure Rule where
  incl : List TimeInterval
  rep : Option Repetition
  pref : Preference
deriving DecidableEq

/-- Shift an interval by an offset with checked adds, as Rule::contains does
(the zip of the two checked_add_signed calls). -/
def shiftInterval (t : TimeInterval) (offset : Int) : Option TimeInterval :=
  match checkedAddSigned t.start offset, checkedAddSigned t.stop offset with
  | some s, some e => some ⟨s, e⟩
  | _, _ => none

/-- The body of the any-loop of Rule::contains at one emitted date: shift
every include interval by the offset of the date from the repetition start
and test containment of the query. -/
def Rule.hitAt (r : Rule) (rep : Repetition) (d : Int) (query : TimeInterval) : Bool :=
  (r.incl.filterMap (fun t => shiftInterval t (d - rep.start))).any
    (fun t => t.contains query)

/-- The bounds pre-test of Rule::contains: query.start >= rep.start and,
when until is set, query.end <= until. -/
def Rule.boundsOk (rep : Repetition) (query : TimeInterval) : Bool :=
  rep.start ≤ query.start &&
    (match rep.untl with
     | none => true
     | some e => query.stop ≤ e)

/-- The any-loop of Rule::contains stops at probe n: the date sequence is
exhausted there, or the until filter rejects the date (the iterator ends), or
the shifted-containment test hits. -/
def Rule.stopsAt (r : Rule) (rep : Repetition) (query : TimeInterval) (n : Nat) : Prop :=
  match rep.dseq n with
  | none => True
  | some d => rep.untilOk d = false ∨ r.hitAt rep d query = true

/-- The call Rule::contains(query) terminates: without a repetition it always
does; with one, either the bounds pre-test fails or the lazy traversal of
repetition dates reaches a probe where it stops. -/
def Rule.containsTerminates (r : Rule) (query : TimeInterval) : Prop :=
  match r.rep with
  | none => True
  | some rep => Rule.boundsOk rep query = false ∨ ∃ n, r.stopsAt rep query n

/-- Rule::contains(query) returns true: without a repetition, some include
interval contains the query; with one, the bounds pre-test passes and the
traversal reaches an emitted date (every earlier date passing the until
filter) whose shifted include intervals contain the query. -/
def Rule.Contains (r : Rule) (query : TimeInterval) : Prop :=
  match r.rep with
  | none => ∃ t ∈ r.incl, t.contains query = true
  | some rep =>
      Rule.boundsOk rep query = true ∧
      ∃ n d, rep.dseq n = some d ∧
        (∀ m e, m ≤ n → rep.dseq m = some e → rep.untilOk e = true) ∧
        r.hitAt rep d query = true

example : (⟨0, 100⟩ : TimeInterval).contains ⟨10, 90⟩ = true := by decide

example : Frequency.checked_add_date ⟨0, 0, 1, 0, 0, 0, 0⟩ 0 = some 0 := by decide

example : Frequency.specAdvance ⟨0, 0, 1, 0, 0, 0, 0⟩ 0 = some 3600 := by decide

example : Frequency.checked_add_date ⟨5, 2, 0, 1, 1, 0, 0⟩ 0 = some (125 + 8 * 86400) := by
  decide


/-- User from data/user.rs, with the fields that the scheduling engine reads.
The skills dictionary is omitted: no code under verification reads it. -/
structure User where
  id : Nat
  name : String
  availability : List (TimeInterval × Preference)
  userPrefs : List (Nat × Preference)
deriving DecidableEq

/-- Slot from data/slot.rs. min_staff is a NonZeroUsize in the source; values
in faithful states are at least 1, which no claim below depends on. -/
structure Slot where
  interval : TimeInterval
  minStaff : Option Nat
  name : String
deriving DecidableEq

/-- Task from algo and data/task.rs, with the fields read by dep_graph and
Schedule::generate (the skills, description and deadline fields are never
read by them). deps is an FxHashSet in the source, modelled as a list of
distinct members in iteration order. -/
structure Task where
  id : Nat
  title : String
  deps : List Nat
deriving DecidableEq

/-- SchedulingError from algo/mod.rs. -/
inductive SchedulingError
  | nonExistentTask (id : Nat)
  | wouldCycle
  | illegal
  | understaffed
deriving DecidableEq

deriving instance DecidableEq for Except

/-- The ids of the tasks in the map (the node set of the dependency graph). -/
def taskIds (tasks : List Task) : List Nat := tasks.map (fun t => t.id)

/-- The edge list that dep_graph feeds to add_edges: for every task and every
dependency d of it, one edge (d, task.id) from the dependency to the task. -/
def edgesOf (tasks : List Task) : List (Nat × Nat) :=
  tasks.flatMap (fun t => t.deps.map (fun d => (d, t.id)))

/-- One breadth step of reachability over a directed edge list: add the head
of every edge whose tail is already reached. -/
def reachStep (edges : List (Nat × Nat)) (s : List Nat) : List Nat :=
  s ++ edges.filterMap (fun e => if e.1 ∈ s ∧ e.2 ∉ s then some e.2 else none)

/-- All nodes reachable from src along the edge list (enough iterations of
reachStep to reach the fixed point). -/
def reachList (edges : List (Nat × Nat)) (src : Nat) : List Nat :=
  (reachStep edges)^[edges.length + 1] [src]

/-- Decides whether tgt is reachable from src along the edge list; this is
the path test the daggy add_edge cycle check performs. -/
def reaches (edges : List (Nat × Nat)) (src tgt : Nat) : Bool :=
  decide (tgt ∈ reachList edges src)

/-- Outcome of dep_graph: the source either panics on a dependency id with no
task (its doc comment says so), fails with WouldCycle, or returns the graph,
modelled by its final edge list. Its return type cannot carry the
NonExistentTask error of SchedulingError. -/
inductive DepResult
  | panicked
  | wouldCycle
  | ok (edges : List (Nat × Nat))
deriving DecidableEq

/-- The add_edges loop of dep_graph: edges are added one at a time; looking
up a parent id that is not a task panics, and an edge whose head already
reaches its tail would close a cycle and fails. -/
def addEdges (ids : List Nat) : List (Nat × Nat) → List (Nat × Nat) → DepResult
  | acc, [] => .ok acc
  | acc, (parent, child) :: rest =>
      if parent ∈ ids then
        if reaches acc child parent then .wouldCycle
        else addEdges ids (acc ++ [(parent, child)]) rest
      else .panicked

/-- dep_graph from algo/mod.rs: insert one node per task, then add one edge
per (dependency, task) pair with the incremental cycle check. -/
def dep_graph (tasks : List Task) : DepResult :=
  addEdges (taskIds tasks) [] (edgesOf tasks)

/-- The matching availability entries of a user for a slot: preference
strictly above minus infinity and interval containing the slot interval.
Mirrors the filter inside Schedule::generate; only the preference component
(the BTreeMap key) is kept, since only it is read afterwards. -/
def matchingPrefs (u : User) (s : Slot) : List Preference :=
  (u.availability.filter
    (fun tp => Preference.blt .negInf tp.2 && tp.1.contains s.interval)).map
    (fun tp => tp.2)

/-- The candidate list of a slot: every user with at least one matching
availability entry, paired with its matching preferences, in user-map
iteration order. -/
def candidateList (users : List User) (s : Slot) : List (User × List Preference) :=
  users.filterMap (fun u =>
    let ps := matchingPrefs u s
    if ps.isEmpty then none else some (u, ps))

/-- Minimum preference of a candidate entry list: the first_key_value of the
BTreeMap keyed by preference. The empty case never occurs in generate (the
candidate filter guarantees at least one entry; the source asserts this with
an expect). -/
def minKey : List Preference → Preference
  | [] => .posInf
  | p :: ps => ps.foldl Preference.bmin p

/-- Insert a candidate into a list sorted by descending minimum preference,
before the first entry whose key is less than or equal to its key (the
element being inserted precedes all equal keys, matching stability). -/
def insertByKeyDesc (x : User × List Preference) :
    List (User × List Preference) → List (User × List Preference)
  | [] => [x]
  | y :: ys =>
      if (minKey y.2).ble (minKey x.2) then x :: y :: ys
      else y :: insertByKeyDesc x ys

/-- Stable sort of the candidates by descending minimum preference: the
observable behavior of sort_by_cached_key with key Reverse(first_key_value)
in Schedule::generate (the Rust sort is stable). -/
def sortCandidates : List (User × List Preference) → List (User × List Preference)
  | [] => []
  | x :: xs => insertByKeyDesc x (sortCandidates xs)

/-- The staffing of one slot in Schedule::generate. With min_staff = n and
fewer candidates the slot is understaffed; with exactly n all candidates are
taken unsorted; with more the source sorts descending and then extends the
empty staff set with split_off(n), that is with the candidates from position
n onward. With min_staff = None the staff set stays empty. -/
def slotStaff (users : List User) (s : Slot) : Except SchedulingError (List Nat) :=
  let cands := candidateList users s
  match s.minStaff with
  | some n =>
      if cands.length < n then .error .understaffed
      else if cands.length = n then .ok (cands.map (fun c => c.1.id))
      else .ok (((sortCandidates cands).drop n).map (fun c => c.1.id))
  | none => .ok []

/-- The slot loop of Schedule::generate: slots in input order, stopping at
the first failing slot. -/
def genSlots (users : List User) : List Slot → Except SchedulingError (List (Slot × List Nat))
  | [] => .ok []
  | s :: rest =>
      match slotStaff users s with
      | .error e => .error e
      | .ok st =>
          match genSlots users rest with
          | .error e => .error e
          | .ok acc => .ok ((s, st) :: acc)

/-- Schedule::generate from algo/mod.rs: build the dependency graph first (a
panic inside it propagates, modelled by the outer none; a cycle is the
WouldCycle error), then staff every slot. -/
def Schedule.generate (slots : List Slot) (tasks : List Task) (users : List User) :
    Option (Except SchedulingError (List (Slot × List Nat))) :=
  match dep_graph tasks with
  | .panicked => none
  | .wouldCycle => some (.error .wouldCycle)
  | .ok _ => some (genSlots users slots)

section SchedulingExamples

example : dep_graph [⟨1, "", [99]⟩] = .panicked := by decide

example : dep_graph [⟨1, "", [2]⟩, ⟨2, "", [1]⟩] = .wouldCycle := by decide

example : dep_graph [⟨1, "", []⟩, ⟨2, "", [1]⟩] = .ok [(1, 2)] := by decide

example :
    Schedule.generate
      [⟨⟨10, 90⟩, some 1, ""⟩] []
      [⟨1, "", [(⟨0, 100⟩, .fin 1)], []⟩,
       ⟨2, "", [(⟨0, 100⟩, .fin 0)], []⟩,
       ⟨3, "", [(⟨0, 100⟩, .fin (-1))], []⟩] =
    some (.ok [(⟨⟨10, 90⟩, some 1, ""⟩, [2, 3])]) := by decide

example :
    Schedule.generate [⟨⟨10, 90⟩, none, ""⟩] [] [⟨1, "", [(⟨0, 100⟩, .fin 1)], []⟩] =
    some (.ok [(⟨⟨10, 90⟩, none, ""⟩, [])]) := by decide

end SchedulingExamples


/-- Smallest Proficiency value (Proficiency::MIN, an f32 zero). -/
def profMIN : ℚ := 0

/-- Largest Proficiency value (Proficiency::MAX, the exact value of f32 MAX). -/
def profMAX : ℚ := 340282346638528859811704183484516925440

/-- One bound of a Rust RangeBounds argument to ProficiencyReq::new. -/
inductive RBound
  | inclusive (x : ℚ)
  | exclusive (x : ℚ)
  | unbounded
deriving DecidableEq

/-- The BoundExt::get helper inside ProficiencyReq::new: both inclusive and
exclusive bounds yield their value, an unbounded one yields none. -/
def RBound.get : RBound → Option ℚ
  | .inclusive x => some x
  | .exclusive x => some x
  | .unbounded => none

/-- ProficiencyReq from data/task.rs (Proficiency values as rationals). -/
structure ProficiencyReq where
  target : ℚ
  soft_min : ℚ
  soft_max : ℚ
  hard_min : ℚ
  hard_max : ℚ
deriving DecidableEq

/-- The range_to_vals helper inside ProficiencyReq::new: missing bounds
default to Proficiency::MIN and Proficiency::MAX. -/
def rangeToVals (lo hi : RBound) : ℚ × ℚ :=
  (lo.get.getD profMIN, hi.get.getD profMAX)

/-- ProficiencyReq::new from data/task.rs: extract the bound values of the
two ranges and construct the record when hard_min <= soft_min and
soft_max <= hard_max hold. -/
def ProficiencyReq.new (target : ℚ) (softLo softHi hardLo hardHi : RBound) :
    Option ProficiencyReq :=
  let hard := rangeToVals hardLo hardHi
  let soft := rangeToVals softLo softHi
  if hard.1 ≤ soft.1 ∧ soft.2 ≤ hard.2 then
    some ⟨target, soft.1, soft.2, hard.1, hard.2⟩
  else none

/-- The full bound chain the specification asserts for every ProficiencyReq. -/
def ProficiencyReq.fullChain (r : ProficiencyReq) : Prop :=
  r.hard_min ≤ r.soft_min ∧ r.soft_min ≤ r.target ∧
    r.target ≤ r.soft_max ∧ r.soft_max ≤ r.hard_max

namespace Integration

/-- Rule as the integration layer stores it (integration.rs works against a
data model in which a Rule carries its own id and a user owns a map from
RuleId to Rule). -/
structure Rule where
  id : Nat
  incl : List TimeInterval
  rep : Option Repetition
  pref : Preference
deriving DecidableEq

/-- User as the integration layer stores it: availability is the map from
RuleId to Rule (an association list here). Only the fields read by the
functions under verification are carried. -/
structure User where
  id : Nat
  name : String
  availability : List (Nat × Rule)
deriving DecidableEq

/-- Slot as the integration layer stores it (with its id). -/
structure Slot where
  id : Nat
  interval : TimeInterval
  minStaff : Option Nat
  name : String
deriving DecidableEq

/-- Largest rule id of a user availability map, as load_users reads it
(availability.keys().map(id).max()). -/
def maxRuleId (u : User) : Option Nat :=
  (u.availability.map (fun r => r.1)).foldl (fun acc k =>
    match acc with
    | none => some k
    | some m => some (Nat.max m k)) none

/-- load_users from integration.rs, after parsing: replace the user map with
the file records and compute the stored counters. Per record it sets
next_id to max(next_id, id + 1) but rule_id only to max(rule_id, largest
rule id of the record), without adding one. Returns the new map, the stored
UserId counter and the stored RuleId counter. -/
def load_users (records : List User) : List (Nat × User) × Nat × Nat :=
  let counters := records.foldl (fun (acc : Nat × Nat) u =>
    (Nat.max acc.1 (u.id + 1),
     match maxRuleId u with
     | none => acc.2
     | some m => Nat.max m acc.2)) (0, 0)
  (records.map (fun u => (u.id, u)), counters.1, counters.2)

/-- load_slots from integration.rs, after parsing: replace the slot map and
store next_id = max over records of (id + 1), zero when empty. Returns the
new map and the stored SlotId counter. -/
def load_slots (records : List Slot) : List (Nat × Slot) × Nat :=
  (records.map (fun s => (s.id, s)),
   records.foldl (fun acc s => Nat.max acc (s.id + 1)) 0)

/-- The availability sub-delta of a UserDelta (NoGrowSetDelta of RuleDelta):
rule ids to delete and per-rule updates. The payload of an update (include
interval edits, repetition and preference replacements) is carried verbatim
but is never observable: the enclosing function panics before returning. -/
structure RuleDelta where
  deleteIncl : List Nat
  updateIncl : List (Nat × TimeInterval)
  createIncl : List TimeInterval
  rep : Option (Option Repetition)
  pref : Option Preference
deriving DecidableEq

/-- A mutation request for one user, from integration.rs (Update fields are
Option, collection fields are delta sets). -/
structure UserDelta where
  name : Option String
  availabilityDelete : List Nat
  availabilityUpdate : List (Nat × RuleDelta)
  userPrefsDelete : List Nat
  userPrefsUpdate : List (Nat × Preference)
  userPrefsCreate : List (Nat × Preference)
deriving DecidableEq

/-- mut_users from integration.rs. The per-entry closure applies the name,
availability, user_prefs and skills deltas to an existing user and then
falls into an unconditional todo macro, so the call panics (none) as soon as
the batch has any entry at all; only an empty batch returns, with the empty
failure map. The store mutations of the first entry are not observable
through a return value. -/
def mut_users (users : List (Nat × User)) (delta : List (Nat × UserDelta)) :
    Option (List (Nat × User) × List (Nat × List Nat)) :=
  match delta with
  | [] => some (users, [])
  | _ :: _ => none

end Integration

section IntegrationExamples

example :
    (ProficiencyReq.new 0 (.inclusive 5) (.inclusive 5)
      (.inclusive 0) (.inclusive 10)) = some ⟨0, 5, 5, 0, 10⟩ := by decide

example :
    Integration.load_users
      [⟨3, "", [(7, ⟨7, [⟨0, 1⟩], none, .fin 0⟩)]⟩] =
    ([(3, ⟨3, "", [(7, ⟨7, [⟨0, 1⟩], none, .fin 0⟩)]⟩)], 4, 7) := by decide

example :
    Integration.load_slots [⟨5, ⟨0, 1⟩, none, ""⟩] =
    ([(5, ⟨5, ⟨0, 1⟩, none, ""⟩)], 6) := by decide

end IntegrationExamples


/-! Concrete inputs used by the claim theorems. -/

/-- A slot demanding one staff member. -/
def c1Slot : Slot := ⟨⟨10, 90⟩, some 1, ""⟩

/-- Three users available for c1Slot with pairwise distinct preferences 1, 0
and -1 (so the staffing outcome does not depend on hash iteration order). -/
def c1Users : List User :=
  [⟨1, "", [(⟨0, 100⟩, .fin 1)], []⟩,
   ⟨2, "", [(⟨0, 100⟩, .fin 0)], []⟩,
   ⟨3, "", [(⟨0, 100⟩, .fin (-1))], []⟩]

/-- Claim C1: for a slot with min_staff = k and more than k candidates, the claim
says generate assigns exactly the k candidates of greatest stored preference.
Evaluating the embedded generate on one slot with min_staff = 1 and three
candidates of preferences 1, 0, -1 yields the staff set {2, 3}: the source
sorts descending but then extends the staff with split_off(1), the candidates
from position 1 onward, so it assigns the two lowest-preference users and
drops the top one, and the staff size is 2, not 1. -/
theorem generate_overfull_slot_takes_bottom_candidates :
    Schedule.generate [c1Slot] [] c1Users = some (.ok [(c1Slot, [2, 3])]) ∧
      (1 : Nat) ∉ [2, 3] := by decide

/-- The all-zero frequency. -/
def zeroFreq : Frequency := ⟨0, 0, 0, 0, 0, 0, 0⟩

/-- A permanent repetition that never advances: all-zero frequency and no
until bound. -/
def c4Rep : Repetition := ⟨zeroFreq, 0, none⟩

/-- A rule whose repetition never advances and whose include interval cannot
cover the query below. -/
def c4Rule : Rule := ⟨[⟨0, 10⟩], some c4Rep, .fin 0⟩

/-- A query inside the repetition bounds but never covered by the rule. -/
def c4Query : TimeInterval := ⟨20, 30⟩

/-- The date sequence of the never-advancing repetition is constantly the
start date. -/
theorem c4Rep_dseq_const : ∀ n, c4Rep.dseq n = some 0
  | 0 => rfl
  | n + 1 => by
      rw [Repetition.dseq, c4Rep_dseq_const n]
      decide

/-- Claim C4: the claim says Rule::contains terminates for every rule, the
traversal stopping once a generated datetime exceeds the query bound. On the
rule with an all-zero frequency and no until bound, the traversal generates
the start date forever, no probe of the any-loop ever stops, and the bounds
pre-test passes, so the call does not terminate: the source has no cutoff
tied to the query bound. -/
theorem rule_contains_no_query_cutoff : ¬ c4Rule.containsTerminates c4Query := by
  intro h
  have h2 : Rule.boundsOk c4Rep c4Query = false ∨ ∃ n, c4Rule.stopsAt c4Rep c4Query n := h
  rcases h2 with hb | ⟨n, hn⟩
  · exact absurd hb (by decide)
  · have hs : Rule.stopsAt c4Rule c4Rep c4Query n := hn
    rw [Rule.stopsAt] at hs
    rw [c4Rep_dseq_const n] at hs
    rcases hs with h1 | h2
    · exact absurd h1 (by decide)
    · exact absurd h2 (by decide)

/-- Claim C5: the claim says the hours component of a Frequency contributes 3600
seconds per unit when advancing a datetime. Advancing the epoch by the
frequency of exactly one hour leaves the datetime unchanged in the source
(which computes seconds + 60 * minutes and never reads hours), while the
specification-side advance yields 3600. -/
theorem checked_add_date_ignores_hours :
    Frequency.checked_add_date ⟨0, 0, 1, 0, 0, 0, 0⟩ 0 = some 0 ∧
      Frequency.specAdvance ⟨0, 0, 1, 0, 0, 0, 0⟩ 0 = some 3600 ∧
      (some (0 : Int) ≠ some (3600 : Int)) := by decide

/-- The claim of C6 as stated: ProficiencyReq::new returns Some exactly when
the bounds extracted from its arguments satisfy the full chain
hard_min <= soft_min <= target <= soft_max <= hard_max. -/
def claimC6Stated : Prop :=
  ∀ (target : ℚ) (softLo softHi hardLo hardHi : RBound),
    (ProficiencyReq.new target softLo softHi hardLo hardHi).isSome = true ↔
      ((rangeToVals hardLo hardHi).1 ≤ (rangeToVals softLo softHi).1 ∧
       (rangeToVals softLo softHi).1 ≤ target ∧
       target ≤ (rangeToVals softLo softHi).2 ∧
       (rangeToVals softLo softHi).2 ≤ (rangeToVals hardLo hardHi).2)

/-- Claim C6 counterexample: with target 0, soft range [5, 5] and hard range
[0, 10], new returns Some although soft_min <= target fails (5 <= 0 is
false), so the claimed equivalence does not hold. -/
theorem proficiencyReq_new_accepts_target_outside_soft : ¬ claimC6Stated := by
  intro h
  have h2 := (h 0 (.inclusive 5) (.inclusive 5) (.inclusive 0) (.inclusive 10)).mp
    (by decide)
  exact absurd h2 (by decide)

/-- Claim C6 amended: ProficiencyReq::new returns Some exactly when
hard_min <= soft_min and soft_max <= hard_max hold for the extracted bounds;
neither the relation of target to the soft range nor soft_min <= soft_max is
validated. -/
theorem proficiencyReq_new_isSome_iff
    (target : ℚ) (softLo softHi hardLo hardHi : RBound) :
    (ProficiencyReq.new target softLo softHi hardLo hardHi).isSome = true ↔
      ((rangeToVals hardLo hardHi).1 ≤ (rangeToVals softLo softHi).1 ∧
       (rangeToVals softLo softHi).2 ≤ (rangeToVals hardLo hardHi).2) := by
  unfold ProficiencyReq.new
  simp only []
  split
  · simp_all
  · simp_all

/-- Claim C7: the claim says mut_users returns the set of failed ids, applying the
changes to every existing id. The source closure ends in an unconditional
todo macro, so the call panics on the very first processed entry: any
non-empty batch (here one empty delta for user id 0 against the empty store)
panics instead of returning. -/
theorem mut_users_panics_on_any_entry :
    Integration.mut_users [] [(0, ⟨none, [], [], [], [], []⟩)] = none ∧
      Integration.mut_users [] [] = some ([], []) := by decide

/-- A user record with id 3 owning one rule with id 7, as parsed from a
load_users file. -/
def c8User : Integration.User := ⟨3, "", [(7, ⟨7, [⟨0, 1⟩], none, .fin 0⟩)]⟩

/-- Claim C8: the claim says load_users sets every affected id counter, the RuleId
counter included, to one past the maximum observed id. Loading one user with
id 3 owning one rule with id 7 stores 4 into the UserId counter but 7 (the
maximum itself, not one past it) into the RuleId counter. -/
theorem load_users_rule_counter_not_advanced :
    (Integration.load_users [c8User]).2.1 = 3 + 1 ∧
      (Integration.load_users [c8User]).2.2 = 7 ∧ (7 : Nat) ≠ 7 + 1 := by decide


/-- Containment of intervals is antitone in the contained interval: an
interval containing I also contains any sub-interval of I. -/
theorem TimeInterval.contains_of_sub (a I J : TimeInterval)
    (h1 : I.start ≤ J.start) (h2 : J.stop ≤ I.stop)
    (h : a.contains I = true) : a.contains J = true := by
  simp only [TimeInterval.contains, Bool.and_eq_true, decide_eq_true_eq] at h ⊢
  omega

/-- The shifted-containment probe of Rule::contains is antitone in the query
interval. -/
theorem Rule.hitAt_of_sub (r : Rule) (rep : Repetition) (d : Int)
    (I J : TimeInterval) (h1 : I.start ≤ J.start) (h2 : J.stop ≤ I.stop)
    (h : r.hitAt rep d I = true) : r.hitAt rep d J = true := by
  simp only [Rule.hitAt, List.any_eq_true] at h ⊢
  obtain ⟨t, ht, hc⟩ := h
  exact ⟨t, ht, TimeInterval.contains_of_sub t I J h1 h2 hc⟩

/-- The bounds pre-test of Rule::contains is antitone in the query interval. -/
theorem Rule.boundsOk_of_sub (rep : Repetition) (I J : TimeInterval)
    (h1 : I.start ≤ J.start) (h2 : J.stop ≤ I.stop)
    (h : Rule.boundsOk rep I = true) : Rule.boundsOk rep J = true := by
  simp only [Rule.boundsOk, Bool.and_eq_true, decide_eq_true_eq] at h ⊢
  cases hu : rep.untl with
  | none => rw [hu] at h; exact ⟨by omega, rfl⟩
  | some u =>
      rw [hu] at h
      simp only [decide_eq_true_eq] at h ⊢
      exact ⟨by omega, by omega⟩

/-- Claim C9: Rule::contains is monotone in the query interval: if the rule
contains I and J is a sub-interval of I, the rule contains J. The repetition
traversal does not depend on the query, so the same emitted date witnesses
containment of the sub-interval. -/
theorem rule_contains_monotone (r : Rule) (I J : TimeInterval)
    (h1 : I.start ≤ J.start) (h2 : J.stop ≤ I.stop) (h3 : J.start ≤ J.stop)
    (hc : r.Contains I) : r.Contains J := by
  unfold Rule.Contains at hc ⊢
  cases hr : r.rep with
  | none =>
      rw [hr] at hc
      obtain ⟨t, ht, hcon⟩ := hc
      exact ⟨t, ht, TimeInterval.contains_of_sub t I J h1 h2 hcon⟩
  | some rep =>
      rw [hr] at hc
      obtain ⟨hb, n, d, hd, hpre, hhit⟩ := hc
      exact ⟨Rule.boundsOk_of_sub rep I J h1 h2 hb, n, d, hd, hpre,
        Rule.hitAt_of_sub r rep d I J h1 h2 hhit⟩

/-- Witness for C9 at a concrete input: a one-off rule with include interval
[0, 100] contains [10, 90], and by the theorem it contains the sub-interval
[20, 80]. -/
theorem rule_contains_monotone_witness :
    Rule.Contains ⟨[⟨0, 100⟩], none, .fin 0⟩ ⟨20, 80⟩ :=
  rule_contains_monotone ⟨[⟨0, 100⟩], none, .fin 0⟩ ⟨10, 90⟩ ⟨20, 80⟩
    (by decide) (by decide) (by decide)
    ⟨⟨0, 100⟩, by decide, by decide⟩


/-- Every schedule entry produced by the slot loop comes from slotStaff on
its slot. -/
theorem genSlots_mem_staff (users : List User) (slots : List Slot)
    (sched : List (Slot × List Nat)) (h : genSlots users slots = .ok sched)
    (s : Slot) (st : List Nat) (hm : (s, st) ∈ sched) :
    slotStaff users s = .ok st := by
  induction slots generalizing sched with
  | nil =>
      rw [genSlots] at h
      cases h
      simp at hm
  | cons a rest ih =>
      rw [genSlots] at h
      cases hs : slotStaff users a with
      | error e => rw [hs] at h; cases h
      | ok st0 =>
          rw [hs] at h
          cases hr : genSlots users rest with
          | error e => rw [hr] at h; cases h
          | ok acc =>
              rw [hr] at h
              cases h
              rcases List.mem_cons.mp hm with h1 | h2
              · injection h1 with e1 e2
                subst e1; subst e2
                exact hs
              · exact ih acc hr h2

/-- A successful generate run means the dependency graph succeeded and the
slot loop produced the schedule. -/
theorem generate_ok_genSlots (slots : List Slot) (tasks : List Task)
    (users : List User) (sched : List (Slot × List Nat))
    (h : Schedule.generate slots tasks users = some (.ok sched)) :
    genSlots users slots = .ok sched := by
  unfold Schedule.generate at h
  cases hd : dep_graph tasks with
  | panicked => simp [hd] at h
  | wouldCycle => simp [hd] at h
  | ok g => simpa [hd] using h

/-- Claim C10: a slot whose min_staff is None is assigned the empty user set by
Schedule::generate, whatever candidates are available: the staff set starts
empty and is only ever extended under a min_staff pattern match. -/
theorem generate_min_staff_none_empty
    (slots : List Slot) (tasks : List Task) (users : List User)
    (sched : List (Slot × List Nat))
    (h : Schedule.generate slots tasks users = some (.ok sched))
    (s : Slot) (st : List Nat) (hm : (s, st) ∈ sched)
    (hn : s.minStaff = none) : st = [] := by
  have hst := genSlots_mem_staff users slots sched
    (generate_ok_genSlots slots tasks users sched h) s st hm
  rw [slotStaff] at hst
  simp only [hn] at hst
  injection hst with h2
  exact h2.symm

/-- Witness for C10: one slot without min_staff and one available candidate;
generate assigns the empty set, and the theorem applies. -/
theorem generate_min_staff_none_empty_witness : ([] : List Nat) = [] :=
  generate_min_staff_none_empty [⟨⟨10, 90⟩, none, ""⟩] []
    [⟨1, "", [(⟨0, 100⟩, .fin 1)], []⟩] [(⟨⟨10, 90⟩, none, ""⟩, [])]
    (by decide) ⟨⟨10, 90⟩, none, ""⟩ [] (by decide) rfl


/-- Membership in the stable descending insertion. -/
theorem mem_insertByKeyDesc (x a : User × List Preference)
    (l : List (User × List Preference)) :
    a ∈ insertByKeyDesc x l ↔ a = x ∨ a ∈ l := by
  induction l with
  | nil => simp [insertByKeyDesc]
  | cons y ys ih =>
      rw [insertByKeyDesc]
      split
      · simp only [List.mem_cons]
      · simp only [List.mem_cons, ih]
        tauto

/-- The stable sort of the candidates preserves membership. -/
theorem mem_sortCandidates (a : User × List Preference)
    (l : List (User × List Preference)) : a ∈ sortCandidates l ↔ a ∈ l := by
  induction l with
  | nil => simp [sortCandidates]
  | cons x xs ih =>
      rw [sortCandidates, mem_insertByKeyDesc]
      simp [ih]

/-- A candidate entry comes from a user of the map, carries exactly its
matching preferences, and has at least one of them. -/
theorem candidateList_mem (users : List User) (s : Slot)
    (c : User × List Preference) (h : c ∈ candidateList users s) :
    c.1 ∈ users ∧ c.2 = matchingPrefs c.1 s ∧ c.2 ≠ [] := by
  unfold candidateList at h
  rw [List.mem_filterMap] at h
  obtain ⟨u, hu, he⟩ := h
  simp only [] at he
  split at he
  · cases he
  · rename_i hne
    injection he with he2
    subst he2
    refine ⟨hu, rfl, ?_⟩
    intro hnil
    have hnil2 : matchingPrefs u s = [] := hnil
    exact hne (by rw [hnil2]; rfl)

/-- A user with a non-empty matching preference list has an availability
entry above minus infinity containing the slot interval. -/
theorem matchingPrefs_nonempty_entry (u : User) (s : Slot)
    (h : matchingPrefs u s ≠ []) :
    ∃ tp ∈ u.availability, Preference.blt .negInf tp.2 = true ∧
      tp.1.contains s.interval = true := by
  unfold matchingPrefs at h
  rw [ne_eq, List.map_eq_nil_iff] at h
  obtain ⟨tp, htp⟩ := List.exists_mem_of_ne_nil _ h
  rw [List.mem_filter] at htp
  obtain ⟨hmem, hpred⟩ := htp
  rw [Bool.and_eq_true] at hpred
  exact ⟨tp, hmem, hpred.1, hpred.2⟩

/-- Every id staffed on a slot belongs to a candidate of that slot. -/
theorem slotStaff_mem_candidates (users : List User) (s : Slot)
    (st : List Nat) (h : slotStaff users s = .ok st) (uid : Nat)
    (hu : uid ∈ st) :
    ∃ c ∈ candidateList users s, c.1.id = uid := by
  cases hms : s.minStaff with
  | none =>
      simp only [slotStaff, hms] at h
      injection h with h2
      subst h2
      cases hu
  | some n =>
      simp only [slotStaff, hms] at h
      by_cases hlt : (candidateList users s).length < n
      · rw [if_pos hlt] at h
        cases h
      · rw [if_neg hlt] at h
        by_cases hquod : (candidateList users s).length = n
        · rw [if_pos hquod] at h
          injection h with h2
          subst h2
          rw [List.mem_map] at hu
          obtain ⟨c, hc, hcid⟩ := hu
          exact ⟨c, hc, hcid⟩
        · rw [if_neg hquod] at h
          injection h with h2
          subst h2
          rw [List.mem_map] at hu
          obtain ⟨c, hc, hcid⟩ := hu
          have hc2 : c ∈ sortCandidates (candidateList users s) :=
            List.mem_of_mem_drop hc
          exact ⟨c, (mem_sortCandidates c _).mp hc2, hcid⟩

/-- Claim C2 amended: every user assigned to a slot by Schedule::generate has at
least one availability entry with preference strictly above minus infinity
whose interval contains the slot interval (the candidate condition); the
source does not exclude users whose other entries evaluate to minus infinity
on the slot, and never consults user_prefs. -/
theorem generate_assigned_user_is_candidate
    (slots : List Slot) (tasks : List Task) (users : List User)
    (sched : List (Slot × List Nat))
    (h : Schedule.generate slots tasks users = some (.ok sched))
    (s : Slot) (st : List Nat) (hm : (s, st) ∈ sched)
    (uid : Nat) (hu : uid ∈ st) :
    ∃ u ∈ users, u.id = uid ∧ ∃ tp ∈ u.availability,
      Preference.blt .negInf tp.2 = true ∧ tp.1.contains s.interval = true := by
  have hst := genSlots_mem_staff users slots sched
    (generate_ok_genSlots slots tasks users sched h) s st hm
  obtain ⟨c, hc, hcid⟩ := slotStaff_mem_candidates users s st hst uid hu
  obtain ⟨hcu, heq, hne⟩ := candidateList_mem users s c hc
  obtain ⟨tp, htp, hblt, hcon⟩ := matchingPrefs_nonempty_entry c.1 s
    (by rw [← heq]; exact hne)
  exact ⟨c.1, hcu, hcid, tp, htp, hblt, hcon⟩

/-- Witness for the amended C2 at a concrete input: one slot with
min_staff 1 and one candidate, which generate assigns. -/
theorem generate_assigned_user_is_candidate_witness :
    ∃ u ∈ [(⟨1, "", [(⟨0, 100⟩, .fin 1)], []⟩ : User)], u.id = 1 ∧
      ∃ tp ∈ u.availability, Preference.blt .negInf tp.2 = true ∧
        tp.1.contains (⟨10, 90⟩ : TimeInterval) = true :=
  generate_assigned_user_is_candidate [⟨⟨10, 90⟩, some 1, ""⟩] []
    [⟨1, "", [(⟨0, 100⟩, .fin 1)], []⟩] [(⟨⟨10, 90⟩, some 1, ""⟩, [1])]
    (by decide) ⟨⟨10, 90⟩, some 1, ""⟩ [1] (by decide) 1 (by decide)

/-- The claim of C2 as stated: a schedule produced by generate never assigns
a user having an availability entry of preference minus infinity whose
interval contains the slot interval, and never assigns two users whose
mutual user_prefs entries are minus infinity. -/
def claimC2Stated : Prop :=
  ∀ (slots : List Slot) (tasks : List Task) (users : List User)
    (sched : List (Slot × List Nat)),
    Schedule.generate slots tasks users = some (.ok sched) →
    ∀ s st, (s, st) ∈ sched →
      (∀ uid, uid ∈ st → ∀ u, u ∈ users → u.id = uid →
        ∀ tp, tp ∈ u.availability → tp.1.contains s.interval = true →
          tp.2 ≠ Preference.negInf) ∧
      (∀ uid1 uid2, uid1 ∈ st → uid2 ∈ st →
        ∀ u1 u2, u1 ∈ users → u2 ∈ users → u1.id = uid1 → u2.id = uid2 →
          uid1 ≠ uid2 →
          ¬((uid2, Preference.negInf) ∈ u1.userPrefs ∧
            (uid1, Preference.negInf) ∈ u2.userPrefs))

/-- The slot of the C2 counterexample. -/
def c2Slot : Slot := ⟨⟨10, 90⟩, some 2, ""⟩

/-- First C2 counterexample user: a minus-infinity availability entry over
the slot next to a finite one, and a minus-infinity preference against
user 2. -/
def c2U1 : User :=
  ⟨1, "", [(⟨0, 100⟩, .negInf), (⟨0, 100⟩, .fin 1)], [(2, .negInf)]⟩

/-- Second C2 counterexample user, symmetric to the first. -/
def c2U2 : User :=
  ⟨2, "", [(⟨0, 100⟩, .negInf), (⟨0, 100⟩, .fin 1)], [(1, .negInf)]⟩

/-- Claim C2 counterexample: generate staffs the slot with both users of the pair
above (each having a minus-infinity availability entry containing the slot
interval, and the two having mutual minus-infinity user_prefs), so the claim
as stated is false. -/
theorem generate_schedules_neg_inf_availability : ¬ claimC2Stated := by
  intro h
  have h2 := h [c2Slot] [] [c2U1, c2U2] [(c2Slot, [1, 2])] (by decide)
    c2Slot [1, 2] (by decide)
  have h3 := h2.1 1 (by decide) c2U1 (by decide) rfl
    (⟨0, 100⟩, Preference.negInf) (by decide) (by decide)
  exact h3 rfl


/-- One directed step along an edge list. -/
def EdgeRel (edges : List (Nat × Nat)) (a b : Nat) : Prop := (a, b) ∈ edges

/-- Reachability along an edge list: the reflexive transitive closure of the
step relation. -/
abbrev Reach (edges : List (Nat × Nat)) : Nat → Nat → Prop :=
  Relation.ReflTransGen (EdgeRel edges)

/-- Acyclicity of an edge list: no edge is completed back to its tail by a
path. -/
def AcyclicEdges (edges : List (Nat × Nat)) : Prop :=
  ∀ e ∈ edges, ¬ Reach edges e.2 e.1

/-- Well-formedness of a task map: every dependency id is the id of a task
of the map. -/
def WellFormedTasks (tasks : List Task) : Prop :=
  ∀ t ∈ tasks, ∀ d ∈ t.deps, d ∈ taskIds tasks

/-- Characterization of one breadth step of reachability. -/
theorem mem_reachStep {edges : List (Nat × Nat)} {s : List Nat} {x : Nat} :
    x ∈ reachStep edges s ↔
      x ∈ s ∨ ∃ e ∈ edges, e.1 ∈ s ∧ e.2 ∉ s ∧ e.2 = x := by
  simp only [reachStep, List.mem_append, List.mem_filterMap]
  constructor
  · rintro (h | ⟨e, he, hf⟩)
    · exact .inl h
    · right
      by_cases h1 : e.1 ∈ s ∧ e.2 ∉ s
      · rw [if_pos h1] at hf
        exact ⟨e, he, h1.1, h1.2, Option.some_inj.mp hf⟩
      · rw [if_neg h1] at hf
        cases hf
  · rintro (h | ⟨e, he, h1, h2, rfl⟩)
    · exact .inl h
    · exact .inr ⟨e, he, by rw [if_pos ⟨h1, h2⟩]⟩

/-- Everything collected by the breadth iteration is reachable. -/
theorem reachIter_sound (edges : List (Nat × Nat)) (src : Nat) :
    ∀ k x, x ∈ (reachStep edges)^[k] [src] → Reach edges src x := by
  intro k
  induction k with
  | zero =>
      intro x hx
      simp only [Function.iterate_zero, id_eq, List.mem_singleton] at hx
      subst hx
      exact .refl
  | succ k ih =>
      intro x hx
      rw [Function.iterate_succ_apply'] at hx
      rcases mem_reachStep.mp hx with h | ⟨e, he, h1, _h2, rfl⟩
      · exact ih x h
      · exact (ih e.1 h1).tail he

/-- A breadth step only grows the collected list. -/
theorem subset_reachStep (edges : List (Nat × Nat)) (s : List Nat) :
    ∀ x ∈ s, x ∈ reachStep edges s :=
  fun _ hx => List.mem_append.mpr (.inl hx)

/-- The breadth iterates grow with the index. -/
theorem reachIter_mono (edges : List (Nat × Nat)) (src : Nat) {i j : Nat}
    (hij : i ≤ j) :
    ∀ x, x ∈ (reachStep edges)^[i] [src] → x ∈ (reachStep edges)^[j] [src] := by
  induction j with
  | zero =>
      intro x hx
      have : i = 0 := Nat.le_zero.mp hij
      subst this
      exact hx
  | succ j ih =>
      intro x hx
      rcases Nat.lt_or_ge i (j + 1) with h | h
      · have hx2 := ih (Nat.lt_succ_iff.mp h) x hx
        rw [Function.iterate_succ_apply']
        exact subset_reachStep _ _ x hx2
      · have : i = j + 1 := Nat.le_antisymm hij h
        subst this
        exact hx

/-- A collected list closed under the edge relation. -/
def ClosedUnder (edges : List (Nat × Nat)) (s : List Nat) : Prop :=
  ∀ e ∈ edges, e.1 ∈ s → e.2 ∈ s

/-- A breadth step on a closed list is the list itself. -/
theorem reachStep_eq_of_closed (edges : List (Nat × Nat)) (s : List Nat)
    (h : ClosedUnder edges s) : reachStep edges s = s := by
  unfold reachStep
  have h2 : edges.filterMap
      (fun e => if e.1 ∈ s ∧ e.2 ∉ s then some e.2 else none) = [] := by
    rw [List.filterMap_eq_nil_iff]
    intro e he
    rw [if_neg]
    rintro ⟨h1, h2⟩
    exact h2 (h e he h1)
  rw [h2, List.append_nil]

/-- A non-closed list grows strictly (as a finite set) under a breadth step. -/
theorem notClosed_card_lt (edges : List (Nat × Nat)) (s : List Nat)
    (h : ¬ ClosedUnder edges s) :
    s.toFinset.card < (reachStep edges s).toFinset.card := by
  unfold ClosedUnder at h
  push_neg at h
  obtain ⟨e, he, h1, h2⟩ := h
  apply Finset.card_lt_card
  constructor
  · intro x hx
    rw [List.mem_toFinset] at hx ⊢
    exact subset_reachStep edges s x hx
  · intro hsub
    have : e.2 ∈ (reachStep edges s).toFinset := by
      rw [List.mem_toFinset]
      exact mem_reachStep.mpr (.inr ⟨e, he, h1, h2, rfl⟩)
    have := hsub this
    rw [List.mem_toFinset] at this
    exact h2 this

/-- Every element of a breadth iterate is the source or the head of an edge. -/
theorem reachIter_mem_bound (edges : List (Nat × Nat)) (src : Nat) :
    ∀ k x, x ∈ (reachStep edges)^[k] [src] →
      x = src ∨ x ∈ edges.map (fun e => e.2) := by
  intro k
  induction k with
  | zero =>
      intro x hx
      simp only [Function.iterate_zero, id_eq, List.mem_singleton] at hx
      exact .inl hx
  | succ k ih =>
      intro x hx
      rw [Function.iterate_succ_apply'] at hx
      rcases mem_reachStep.mp hx with h | ⟨e, he, _h1, _h2, rfl⟩
      · exact ih x h
      · exact .inr (List.mem_map.mpr ⟨e, he, rfl⟩)

/-- While no breadth iterate is closed, the collected finite set grows
beyond any bound. -/
theorem reachIter_card_grows (edges : List (Nat × Nat)) (src : Nat) :
    ∀ K, (∀ k, k < K → ¬ ClosedUnder edges ((reachStep edges)^[k] [src])) →
      K + 1 ≤ ((reachStep edges)^[K] [src]).toFinset.card := by
  intro K
  induction K with
  | zero => intro _; simp
  | succ K ih =>
      intro h
      have h1 := ih (fun k hk => h k (Nat.lt_succ_of_lt hk))
      have h2 := notClosed_card_lt edges _ (h K (Nat.lt_succ_self K))
      rw [Function.iterate_succ_apply']
      omega

/-- The collected finite set never exceeds the number of edges plus one. -/
theorem reachIter_card_le (edges : List (Nat × Nat)) (src : Nat) (k : Nat) :
    ((reachStep edges)^[k] [src]).toFinset.card ≤ edges.length + 1 := by
  have hsub : ((reachStep edges)^[k] [src]).toFinset ⊆
      insert src (edges.map (fun e => e.2)).toFinset := by
    intro x hx
    rw [List.mem_toFinset] at hx
    rcases reachIter_mem_bound edges src k x hx with h | h
    · exact Finset.mem_insert.mpr (.inl h)
    · exact Finset.mem_insert.mpr (.inr (List.mem_toFinset.mpr h))
  calc ((reachStep edges)^[k] [src]).toFinset.card
      ≤ (insert src (edges.map (fun e => e.2)).toFinset).card :=
        Finset.card_le_card hsub
    _ ≤ (edges.map (fun e => e.2)).toFinset.card + 1 := Finset.card_insert_le _ _
    _ ≤ (edges.map (fun e => e.2)).length + 1 :=
        Nat.add_le_add_right (List.toFinset_card_le _) 1
    _ = edges.length + 1 := by rw [List.length_map]

/-- Some breadth iterate within the fuel bound is closed. -/
theorem exists_closed_iter (edges : List (Nat × Nat)) (src : Nat) :
    ∃ k ≤ edges.length, ClosedUnder edges ((reachStep edges)^[k] [src]) := by
  by_contra h
  push_neg at h
  have h2 : ∀ k, k < edges.length + 1 →
      ¬ ClosedUnder edges ((reachStep edges)^[k] [src]) :=
    fun k hk => h k (Nat.lt_succ_iff.mp hk)
  have h3 := reachIter_card_grows edges src (edges.length + 1) h2
  have h4 := reachIter_card_le edges src (edges.length + 1)
  omega

/-- Everything reachable is collected by the breadth iteration. -/
theorem reachIter_complete (edges : List (Nat × Nat)) (src tgt : Nat)
    (h : Reach edges src tgt) : tgt ∈ reachList edges src := by
  obtain ⟨k, hk, hcl⟩ := exists_closed_iter edges src
  have hsrc : src ∈ (reachStep edges)^[k] [src] :=
    reachIter_mono edges src (Nat.zero_le k) src (by simp)
  have htgt : tgt ∈ (reachStep edges)^[k] [src] := by
    induction h with
    | refl => exact hsrc
    | tail _hab hbc ih => exact hcl _ hbc ih
  exact reachIter_mono edges src (by omega) tgt htgt

/-- Correctness of the decidable path test. -/
theorem reaches_iff (edges : List (Nat × Nat)) (src tgt : Nat) :
    reaches edges src tgt = true ↔ Reach edges src tgt := by
  unfold reaches
  rw [decide_eq_true_eq]
  exact ⟨fun h => reachIter_sound edges src (edges.length + 1) tgt h,
    reachIter_complete edges src tgt⟩


/-- Decomposition of a path over an edge list extended by one edge (p, c)
whose head cannot reach its tail over the old list: the path either avoids
the new edge entirely, or splits into an old path to p and an old path from
c. -/
theorem reach_snoc_decompose (acc : List (Nat × Nat)) (p c : Nat)
    (hnp : ¬ Reach acc c p) (a b : Nat)
    (h : Reach (acc ++ [(p, c)]) a b) :
    Reach acc a b ∨ (Reach acc a p ∧ Reach acc c b) := by
  induction h with
  | refl => exact .inl .refl
  | tail _hab hbc ih =>
      rcases List.mem_append.mp hbc with hin | hnew
      · rcases ih with h1 | ⟨h1, h2⟩
        · exact .inl (h1.tail hin)
        · exact .inr ⟨h1, h2.tail hin⟩
      · rw [List.mem_singleton] at hnew
        rw [Prod.mk.injEq] at hnew
        obtain ⟨rfl, rfl⟩ := hnew
        rcases ih with h1 | ⟨h1, h2⟩
        · exact .inr ⟨h1, .refl⟩
        · exact absurd h2 hnp

/-- Adding an edge (p, c) to an acyclic edge list keeps it acyclic when c
does not already reach p. -/
theorem acyclicEdges_snoc (acc : List (Nat × Nat)) (p c : Nat)
    (hacc : AcyclicEdges acc) (hnp : ¬ Reach acc c p) :
    AcyclicEdges (acc ++ [(p, c)]) := by
  intro e he hcyc
  rcases List.mem_append.mp he with hin | hnew
  · rcases reach_snoc_decompose acc p c hnp e.2 e.1 hcyc with h1 | ⟨h1, h2⟩
    · exact hacc e hin h1
    · exact hnp ((h2.tail hin).trans h1)
  · rw [List.mem_singleton] at hnew
    subst hnew
    rcases reach_snoc_decompose acc p c hnp c p hcyc with h1 | ⟨h1, _h2⟩
    · exact hnp h1
    · exact hnp h1

/-- Properties of a successful add_edges run: the final graph is the
accumulated edges followed by the processed ones, every processed parent id
was found among the task ids, and acyclicity of the accumulator is carried
to the final graph. -/
theorem addEdges_ok_props (ids : List Nat) :
    ∀ (rest acc : List (Nat × Nat)) (g : List (Nat × Nat)),
      addEdges ids acc rest = .ok g →
      g = acc ++ rest ∧ (∀ e ∈ rest, e.1 ∈ ids) ∧
        (AcyclicEdges acc → AcyclicEdges g) := by
  intro rest
  induction rest with
  | nil =>
      intro acc g h
      rw [addEdges] at h
      injection h with h2
      subst h2
      exact ⟨(List.append_nil _).symm, by simp, id⟩
  | cons e rest ih =>
      obtain ⟨p, c⟩ := e
      intro acc g h
      rw [addEdges] at h
      by_cases hp : p ∈ ids
      · rw [if_pos hp] at h
        by_cases hr : reaches acc c p = true
        · rw [if_pos hr] at h
          cases h
        · rw [if_neg hr] at h
          have hnp : ¬ Reach acc c p := fun hx => hr ((reaches_iff acc c p).mpr hx)
          obtain ⟨hg, hpar, hacy⟩ := ih (acc ++ [(p, c)]) g h
          refine ⟨by rw [hg, List.append_assoc]; rfl, ?_, ?_⟩
          · intro e2 he2
            rcases List.mem_cons.mp he2 with h1 | h2
            · subst h1; exact hp
            · exact hpar e2 h2
          · intro hacc
            exact hacy (acyclicEdges_snoc acc p c hacc hnp)
      · rw [if_neg hp] at h
        cases h

/-- Completeness of add_edges: over a well-formed, acyclic full edge list,
processing any suffix from the matching prefix succeeds and returns the full
list. -/
theorem addEdges_complete (ids : List Nat) (E : List (Nat × Nat))
    (hacy : AcyclicEdges E) (hpar : ∀ e ∈ E, e.1 ∈ ids) :
    ∀ (rest acc : List (Nat × Nat)), acc ++ rest = E →
      addEdges ids acc rest = .ok E := by
  intro rest
  induction rest with
  | nil =>
      intro acc h
      rw [addEdges, ← h, List.append_nil]
  | cons e rest ih =>
      obtain ⟨p, c⟩ := e
      intro acc h
      rw [addEdges]
      have hpc : (p, c) ∈ E := by
        rw [← h]
        exact List.mem_append.mpr (.inr (List.mem_cons_self _ _))
      rw [if_pos (hpar (p, c) hpc)]
      have hnr : ¬ reaches acc c p = true := by
        intro hx
        have h2 : Reach acc c p := (reaches_iff acc c p).mp hx
        have h3 : Reach E c p := by
          refine Relation.ReflTransGen.mono ?_ h2
          intro a b hab
          rw [← h]
          exact List.mem_append.mpr (.inl hab)
        exact hacy (p, c) hpc h3
      rw [if_neg hnr]
      exact ih (acc ++ [(p, c)]) (by rw [List.append_assoc]; exact h)

/-- Bridge between task-map well-formedness and the parents of the edge
list. -/
theorem wellFormed_iff_edges (tasks : List Task) :
    WellFormedTasks tasks ↔ ∀ e ∈ edgesOf tasks, e.1 ∈ taskIds tasks := by
  unfold WellFormedTasks edgesOf
  constructor
  · rintro h e he
    rw [List.mem_flatMap] at he
    obtain ⟨t, ht, he2⟩ := he
    rw [List.mem_map] at he2
    obtain ⟨d, hd, rfl⟩ := he2
    exact h t ht d hd
  · intro h t ht d hd
    exact h (d, t.id)
      (List.mem_flatMap.mpr ⟨t, ht, List.mem_map.mpr ⟨d, hd, rfl⟩⟩)

/-- Claim C3 amended: dep_graph returns a graph exactly when every dependency id
refers to a task of the map and the dependency edges are acyclic; on a
dependency referring to a non-existent id it panics (as its doc comment
says) rather than returning a NonExistentTask error, which its return type
cannot even carry. -/
theorem dep_graph_ok_iff (tasks : List Task) :
    (∃ g, dep_graph tasks = .ok g) ↔
      WellFormedTasks tasks ∧ AcyclicEdges (edgesOf tasks) := by
  constructor
  · rintro ⟨g, hg⟩
    obtain ⟨hgeq, hpar, hacy⟩ :=
      addEdges_ok_props (taskIds tasks) (edgesOf tasks) [] g hg
    have hnil : AcyclicEdges ([] : List (Nat × Nat)) := by
      intro e he
      cases he
    have hg2 : AcyclicEdges g := hacy hnil
    rw [hgeq] at hg2
    rw [List.nil_append] at hg2
    exact ⟨(wellFormed_iff_edges tasks).mpr hpar, hg2⟩
  · rintro ⟨hwf, hacy⟩
    exact ⟨edgesOf tasks,
      addEdges_complete (taskIds tasks) (edgesOf tasks) hacy
        ((wellFormed_iff_edges tasks).mp hwf) (edgesOf tasks) [] rfl⟩

/-- Witness for the amended C3 in its interesting direction: a three-task
chain is well-formed and acyclic, and dep_graph returns its graph. -/
theorem dep_graph_ok_iff_witness :
    WellFormedTasks [⟨1, "", []⟩, ⟨2, "", [1]⟩, ⟨3, "", [2]⟩] ∧
      AcyclicEdges (edgesOf [⟨1, "", []⟩, ⟨2, "", [1]⟩, ⟨3, "", [2]⟩]) :=
  (dep_graph_ok_iff [⟨1, "", []⟩, ⟨2, "", [1]⟩, ⟨3, "", [2]⟩]).mp
    ⟨[(1, 2), (2, 3)], by decide⟩

/-- Claim C3 counterexample: on a task map with a single task depending on the
non-existent id 99, dep_graph panics (the map index expression fails) and
does not return the NonExistentTask error the claim describes. -/
theorem dep_graph_panics_on_missing_dep :
    dep_graph [⟨1, "", [99]⟩] = .panicked ∧
      ∀ g, DepResult.panicked ≠ DepResult.ok g := by
  constructor
  · decide
  · intro g h
    cases h

end Sporks
